import Mathlib

/-!
Verification of the RAG engine of TemplateAIRAG.

The Python sources (embedded in `src/fasi/05-sistema-rag-avanzato.md` and
`src/fasi/considerazioni-tecniche.md`) are shallowly embedded here.  Text is
modelled as `List Char`; Python `str` helpers (`split`, `strip`, `lower`,
`str.split('\n\n')`, the sentence-splitting regex) are given explicit
executable models.  The `tiktoken` tokenizer is abstracted as whitespace word
tokenization (`pywords`): a token is a maximal run of non-whitespace
characters, so token counts are additive across the exact joiners the code
uses (`" "`, `"\n\n"`), which is the property the chunking control flow relies
on.  Python floats are modelled as exact rationals.
-/

namespace TemplateAIRAG

/-- `Char.isWhitespace`, the model of Python's whitespace class. -/
def isWS (c : Char) : Bool := c.isWhitespace

/-- Accumulator worker for `pywords`: splits on the separator class `p`,
dropping empty fields, like Python's `str.split()` with no argument. -/
def splitAux (p : Char → Bool) : List Char → List Char → List (List Char)
  | [], acc => if acc = [] then [] else [acc.reverse]
  | c :: cs, acc =>
      if p c then
        if acc = [] then splitAux p cs [] else acc.reverse :: splitAux p cs []
      else splitAux p cs (c :: acc)

/-- Model of Python `text.split()` (and of `tiktoken.encode`: one token per
whitespace-separated word). -/
def pywords (l : List Char) : List (List Char) := splitAux isWS l []

/-- Model of `len(tokenizer.encode(text))`. -/
def tokenCount (l : List Char) : Nat := (pywords l).length

/-- Model of Python `str.lower()`. -/
def lowerStr (l : List Char) : List Char := l.map Char.toLower

/-- Model of Python `str.strip()`. -/
def trimChars (l : List Char) : List Char :=
  (l.dropWhile isWS).rdropWhile isWS

/-- Model of Python `text.split('\n\n')` (greedy leftmost scan, keeps empty
fields, as `str.split` with an explicit separator does). -/
def splitParasAux : List Char → List Char → List (List Char)
  | [], acc => [acc.reverse]
  | '\n' :: '\n' :: rest, acc => acc.reverse :: splitParasAux rest []
  | c :: rest, acc => splitParasAux rest (c :: acc)

/-- `SemanticChunkingStrategy.chunk_text`: `paragraphs = text.split('\n\n')`. -/
def splitParas (l : List Char) : List (List Char) := splitParasAux l []

/-- Head-of-list whitespace test used by the sentence splitter. -/
def headIsWS : List Char → Bool
  | [] => false
  | d :: _ => isWS d

/-- Model of `re.split(r'(?<=[.!?])\s+', text)`: a maximal whitespace run
preceded by `.`, `!` or `?` separates sentences; the run is consumed.  The
fuel (initially the input length, an upper bound on the characters left)
makes the recursion structural so the kernel can evaluate it; the fuel-zero
case is unreachable because every step consumes at least one character. -/
def splitSentRawAux : Nat → List Char → List Char → List (List Char)
  | _, [], acc => [acc.reverse]
  | 0, l, acc => [acc.reverse ++ l]
  | fuel + 1, c :: rest, acc =>
      if (c = '.' ∨ c = '!' ∨ c = '?') ∧ headIsWS rest then
        (c :: acc).reverse :: splitSentRawAux fuel (rest.dropWhile isWS) []
      else splitSentRawAux fuel rest (c :: acc)

/-- `SemanticChunkingStrategy._split_by_sentences`:
`[s.strip() for s in re.split(...) if s.strip()]`. -/
def splitSentences (l : List Char) : List (List Char) :=
  ((splitSentRawAux l.length l []).map trimChars).filter (fun s => s ≠ [])

/-- A Python metadata dictionary value (the chunkers store ints and strings;
`Bool` covers the `chunk_oversized=true` flag the specification speaks of). -/
inductive MVal where
  | n (v : Nat)
  | s (v : List Char)
  | b (v : Bool)
  deriving DecidableEq, Repr

/-- A Python dict, as the ordered key/value list produced by dict literals;
later bindings override earlier ones (`dictGet`). -/
abbrev Meta := List (String × MVal)

/-- Python dict lookup: the LAST binding of a key wins, as in
`{**metadata, "chunk_index": i, ...}`. -/
def dictGet (m : Meta) (k : String) : Option MVal :=
  (m.reverse.find? (fun kv => kv.1 = k)).map (fun kv => kv.2)

/-- A chunk draft, the dict `{"text": ..., "metadata": {...}}` returned by the
chunking strategies. -/
structure Chunk where
  text : List Char
  metadata : Meta
  deriving DecidableEq, Repr

/-- `SemanticChunkingStrategy._create_chunk`: strips the text and spreads the
document metadata with `chunk_index` and `token_count`. -/
def createChunk (text : List Char) (meta : Meta) (chunk_index : Nat) : Chunk :=
  { text := trimChars text
    metadata := meta ++
      [("chunk_index", MVal.n chunk_index),
       ("token_count", MVal.n (tokenCount text))] }

/-- The loop state of `SemanticChunkingStrategy.chunk_text`:
`chunks`, `current_chunk`, `current_tokens`. -/
structure ChunkState where
  chunks : List Chunk
  cur : List Char
  ct : Nat
  deriving Repr

/-- The body of the sentence loop in `SemanticChunkingStrategy.chunk_text`:
flush `current_chunk` when the budget would be exceeded, else append the
sentence with a `" "` joiner (`current_chunk += " " + sentence if
current_chunk else sentence`). -/
def stepSentence (maxSize : Nat) (meta : Meta) (st : ChunkState)
    (s : List Char) : ChunkState :=
  let stoks := tokenCount s
  if st.ct + stoks > maxSize ∧ st.cur ≠ [] then
    { chunks := st.chunks ++ [createChunk st.cur meta st.chunks.length]
      cur := s, ct := stoks }
  else
    { st with cur := if st.cur = [] then s else st.cur ++ ' ' :: s
              ct := st.ct + stoks }

/-- The body of the paragraph loop in `SemanticChunkingStrategy.chunk_text`:
an over-budget paragraph is re-split into sentences; otherwise the paragraph
is flushed into / appended to `current_chunk` with a `"\n\n"` joiner. -/
def stepParagraph (maxSize : Nat) (meta : Meta) (st : ChunkState)
    (p : List Char) : ChunkState :=
  let ptoks := tokenCount p
  if ptoks > maxSize then
    (splitSentences p).foldl (stepSentence maxSize meta) st
  else if st.ct + ptoks > maxSize ∧ st.cur ≠ [] then
    { chunks := st.chunks ++ [createChunk st.cur meta st.chunks.length]
      cur := p, ct := ptoks }
  else
    { st with cur := if st.cur = [] then p else st.cur ++ '\n' :: '\n' :: p
              ct := st.ct + ptoks }

/-- `SemanticChunkingStrategy.chunk_text`. -/
def semanticChunkText (maxSize : Nat) (text : List Char) (meta : Meta) :
    List Chunk :=
  let st := (splitParas text).foldl (stepParagraph maxSize meta) ⟨[], [], 0⟩
  if st.cur ≠ [] then
    st.chunks ++ [createChunk st.cur meta st.chunks.length]
  else st.chunks

/-- The constructor state of `SemanticChunkingStrategy`: it stores both
`max_chunk_size` and `overlap`. -/
structure SemanticChunkingStrategy where
  max_chunk_size : Nat := 512
  overlap : Nat := 50
  deriving DecidableEq, Repr

/-- The `chunk_text` method: its body reads `self.max_chunk_size` but never
`self.overlap`. -/
def SemanticChunkingStrategy.chunkText (self : SemanticChunkingStrategy)
    (text : List Char) (meta : Meta) : List Chunk :=
  semanticChunkText self.max_chunk_size text meta

/-- Number of iterations of Python `range(0, n, step)` (`step > 0`), i.e.
`⌈n / step⌉`. -/
def sliceCount (n step : Nat) : Nat := (n + step - 1) / step

/-- The slices `l[i : i + size]` for `i in range(0, len(l), step)`.  For
`step = 0` Python's `range` raises `ValueError`; the model returns `[]` there
(theorems assume `step > 0`). -/
def rangeSlices (size step : Nat) (l : List α) : List (List α) :=
  if step = 0 then []
  else (List.range (sliceCount l.length step)).map
    (fun j => (l.drop (j * step)).take size)

/-- Model of `tiktoken.decode`: the word-tokens are rejoined with single
spaces. -/
def decodeTokens (ts : List (List Char)) : List Char :=
  List.intercalate [' '] ts

/-- `FixedSizeChunkingStrategy.chunk_text`: tokenize the whole text and slide
a window of `chunk_size` tokens advancing by `chunk_size - overlap`;
`chunk_index` is `len(chunks)`, i.e. the position `j` of the window. -/
def fixedChunkText (chunkSize overlap : Nat) (text : List Char) (meta : Meta) :
    List Chunk :=
  let tokens := pywords text
  let step := chunkSize - overlap
  if step = 0 then []
  else (List.range (sliceCount tokens.length step)).map (fun j =>
    let w := (tokens.drop (j * step)).take chunkSize
    { text := decodeTokens w
      metadata := meta ++
        [("chunk_index", MVal.n j),
         ("token_count", MVal.n w.length),
         ("start_token", MVal.n (j * step)),
         ("end_token", MVal.n (j * step + w.length))] })

/-- A Qdrant search result as the RAG service consumes it: the stored payload
restricted to the fields the service reads (`result["text"]`,
`result["metadata"]`). -/
structure SearchHit where
  text : List Char
  metadata : Meta
  deriving DecidableEq, Repr

/-- The keyword score of `RAGService._rerank_results`:
`query_words = set(query.lower().split())`; the score is
`len(query_words ∩ set(text.lower().split())) / len(query_words)`
(`0` when the query has no words).  Sets are modelled by `dedup` — the code
only takes cardinalities and membership, which are order-independent. -/
def lexKeywordScore (query text : List Char) : ℚ :=
  let qws := (pywords (lowerStr query)).dedup
  let tws := pywords (lowerStr text)
  let overlapCount := (qws.filter (fun w => w ∈ tws)).length
  if qws = [] then 0 else (overlapCount : ℚ) / (qws.length : ℚ)

/-- `combined_score = (similarity_score * 0.7) + (keyword_score * 0.3)`. -/
def combinedScore (query : List Char) (hit : SearchHit) (sim : ℚ) : ℚ :=
  sim * (7 / 10) + lexKeywordScore query hit.text * (3 / 10)

/-- The order `sorted(..., key=lambda x: x[1], reverse=True)` sorts by:
descending combined score. -/
def scoreGE (a b : SearchHit × ℚ) : Prop := b.2 ≤ a.2

instance : DecidableRel scoreGE := fun a b => inferInstanceAs (Decidable (b.2 ≤ a.2))

instance : IsTotal (SearchHit × ℚ) scoreGE := ⟨fun a b => le_total b.2 a.2⟩

instance : IsTrans (SearchHit × ℚ) scoreGE := ⟨fun _ _ _ hab hbc => le_trans hbc hab⟩

/-- The `scored_results` list of `RAGService._rerank_results`: each candidate
paired with its combined score (the loop appends in input order, i.e. a map). -/
def rerankScored (query : List Char) (results : List (SearchHit × ℚ)) :
    List (SearchHit × ℚ) :=
  results.map (fun r => (r.1, combinedScore query r.1 r.2))

/-- `RAGService._rerank_results`: score every candidate, then a stable
descending sort on the combined score (Python's `sorted` is stable;
`List.insertionSort` with `scoreGE` is the same stable sort). -/
def rerankResults (query : List Char) (results : List (SearchHit × ℚ)) :
    List (SearchHit × ℚ) :=
  List.insertionSort scoreGE (rerankScored query results)

/-- `ranked_results[:max_results]` in `RAGService.query_knowledge_base`. -/
def topKResults (query : List Char) (results : List (SearchHit × ℚ))
    (maxResults : Nat) : List (SearchHit × ℚ) :=
  (rerankResults query results).take maxResults

/-- Renders a metadata value inside an f-string, like Python `str()`. -/
def mvalStr : MVal → List Char
  | MVal.s v => v
  | MVal.n v => (toString v).toList
  | MVal.b v => (toString v).toList

/-- The `[Source i+1] title by author` marker of `RAGService._prepare_context`. -/
def sourceInfo (i : Nat) (hit : SearchHit) : List Char :=
  let base := ("[Source " ++ toString (i + 1) ++ "]").toList
  let withTitle := match dictGet hit.metadata "title" with
    | some v => base ++ ' ' :: mvalStr v
    | none => base
  match dictGet hit.metadata "author" with
  | some v => withTitle ++ (" by ").toList ++ mvalStr v
  | none => withTitle

/-- `RAGService._prepare_context`: joins `f"{source_info}\n{text}\n"` parts
with `"\n"`. -/
def prepareContext (results : List (SearchHit × ℚ)) : List Char :=
  List.intercalate ['\n']
    (results.enum.map (fun p =>
      sourceInfo p.1 p.2.1 ++ '\n' :: p.2.1.text ++ ['\n']))

/-- A source entry of `RAGService._prepare_sources`. -/
structure Source where
  title : List Char
  file_path : List Char
  chunk_index : MVal
  score : ℚ
  preview : List Char
  deriving DecidableEq, Repr

/-- Model of Python `round(score, 3)` (the float banker's rounding is
abstracted to exact rational rounding; no claim depends on the tie case). -/
def round3 (q : ℚ) : ℚ := (round (q * 1000) : ℤ) / 1000

/-- `RAGService._prepare_sources`. -/
def prepareSources (results : List (SearchHit × ℚ)) : List Source :=
  results.map (fun r =>
    { title := (dictGet r.1.metadata "title").elim ("Unknown Document").toList mvalStr
      file_path := (dictGet r.1.metadata "file_path").elim [] mvalStr
      chunk_index := (dictGet r.1.metadata "chunk_index").getD (MVal.n 0)
      score := round3 r.2
      preview := if r.1.text.length > 200
                 then r.1.text.take 200 ++ ("...").toList
                 else r.1.text })

/-- A chat message `{"role": ..., "content": ...}`. -/
abbrev ChatMsg := String × List Char

/-- The RAG system prompt of `RAGService._generate_rag_response`, with the
context interpolated. -/
def ragSystemPrompt (context : List Char) : List Char :=
  ("You are an AI assistant with access to a knowledge base. " ++
   "Use the provided context to answer the user's question accurately. " ++
   "If the context doesn't contain relevant information, say so and provide " ++
   "a general response based on your knowledge. " ++
   "Context from knowledge base: ").toList ++ context

/-- The message list of `RAGService._generate_rag_response`: system prompt,
then `conversation_history[-5:]`, then the user query. -/
def ragMessages (context : List Char) (history : List ChatMsg)
    (query : List Char) : List ChatMsg :=
  ("system", ragSystemPrompt context)
    :: (history.drop (history.length - 5)) ++ [("user", query)]

/-- The fallback message list built in the `except` clause of
`RAGService.query_knowledge_base`. -/
def fallbackMessages (query : List Char) : List ChatMsg :=
  [("system", ("You are a helpful AI assistant.").toList), ("user", query)]

/-- `RAGService.query_knowledge_base`.  The upstream calls are data: the query
embedding arrives as an `Except` (the result of
`azure_ai.generate_embedding(query)`), the vector search as a function of the
embedding, limit and threshold, and the generation capability as a total
function from the message list.  The enclosing `try/except` catches every
failure of steps 1–5 and returns the fallback general-knowledge answer with
empty sources, so the result is always `Except.ok`. -/
def queryKnowledgeBase
    (embedResult : Except String (List ℚ))
    (searchFn : List ℚ → Nat → ℚ → Except String (List (SearchHit × ℚ)))
    (genResponse : List ChatMsg → List Char)
    (query : List Char) (history : List ChatMsg)
    (maxResults : Nat) (scoreThreshold : ℚ) :
    Except String (List Char × List Source) :=
  Except.ok (
    match (do
      let qe ← embedResult
      let hits ← searchFn qe (maxResults * 2) scoreThreshold
      let top := topKResults query hits maxResults
      let ctx := prepareContext top
      let resp := genResponse (ragMessages ctx history query)
      pure (resp, prepareSources top) : Except String (List Char × List Source)) with
    | Except.ok r => r
    | Except.error _ => (genResponse (fallbackMessages query), []))

/-- A point stored in the Qdrant collection: id, vector, and the payload
fields `QdrantVectorStore.add_documents` writes. -/
structure StoredPoint where
  id : Nat
  vector : List ℚ
  payload_text : List Char
  payload_metadata : Meta
  deriving DecidableEq, Repr

/-- Qdrant `upsert` of one point: replace the point with the same id if
present, insert otherwise. -/
def upsertPoint (store : List StoredPoint) (p : StoredPoint) :
    List StoredPoint :=
  if store.any (fun q => q.id = p.id) then
    store.map (fun q => if q.id = p.id then p else q)
  else store ++ [p]

/-- Qdrant `upsert` of a point batch. -/
def upsertPoints (store : List StoredPoint) (ps : List StoredPoint) :
    List StoredPoint :=
  ps.foldl upsertPoint store

/-- One `PointStruct` of `QdrantVectorStore.add_documents`: a FRESH id
(`str(uuid.uuid4())`, modelled as a counter of never-before-used ids) and the
payload built from the chunk. -/
def mkPoint (pid : Nat) (chunk : Chunk) (emb : List ℚ) : StoredPoint :=
  { id := pid, vector := emb
    payload_text := chunk.text, payload_metadata := chunk.metadata }

/-- `QdrantVectorStore.add_documents`: zip chunks with embeddings, draw a
fresh uuid per point, upsert the batch; returns the new store, the next fresh
id, and the generated point ids. -/
def addDocuments (store : List StoredPoint) (nextId : Nat)
    (chunks : List Chunk) (embeddings : List (List ℚ)) :
    List StoredPoint × Nat × List Nat :=
  let pairs := chunks.zip embeddings
  let points := pairs.enum.map (fun p => mkPoint (nextId + p.1) p.2.1 p.2.2)
  (upsertPoints store points, nextId + pairs.length, points.map (fun q => q.id))

/-- `RAGService._generate_embeddings_batch`: slice the texts into batches of
`batch_size` and embed each batch in order (`asyncio.gather` preserves input
order), extending one flat result list. -/
def generateEmbeddingsBatch (embedOne : List Char → List ℚ) (batchSize : Nat)
    (texts : List (List Char)) : List (List ℚ) :=
  ((rangeSlices batchSize batchSize texts).map (fun b => b.map embedOne)).flatten

/-- A JSON value, for the event dicts `ChatService.stream_rag_response`
yields through `json.dumps`. -/
inductive JVal where
  | s (v : List Char)
  | n (v : Nat)
  | q (v : ℚ)
  | arr (v : List JVal)
  | obj (v : List (String × JVal))

/-- An emitted stream event: the dict passed to `json.dumps`. -/
abbrev StreamEvent := List (String × JVal)

/-- Key lookup in an emitted event dict. -/
def eventGet (e : StreamEvent) (k : String) : Option JVal :=
  (e.reverse.find? (fun kv => kv.1 = k)).map (fun kv => kv.2)

/-- JSON serialization of one source entry. -/
def sourceToJ (s : Source) : JVal :=
  JVal.obj [("title", JVal.s s.title), ("file_path", JVal.s s.file_path),
    ("chunk_index", JVal.s (mvalStr s.chunk_index)),
    ("score", JVal.q s.score), ("preview", JVal.s s.preview)]

/-- `ChatService.stream_rag_response`: yields the `sources` event, then one
`chunk` event per whitespace word of the response (`rag_response.split()`),
then the `complete` event with the persisted message id.  Persistence
(`save_chat_message_with_sources`) is modelled by `persistId`, mapping the
accumulated `full_response` to the stored message id.  The function is total:
no path raises. -/
def streamRagResponse (session_id _user_id _user_message : List Char)
    (rag_response : List Char) (sources : List Source)
    (persistId : List Char → List Char) : List StreamEvent :=
  let sourcesEvent : StreamEvent :=
    [("type", JVal.s ("sources").toList),
     ("sources", JVal.arr (sources.map sourceToJ)),
     ("session_id", JVal.s session_id)]
  let ws := pywords rag_response
  let chunkEvents : List StreamEvent := ws.map (fun w =>
    [("type", JVal.s ("chunk").toList),
     ("content", JVal.s (w ++ [' '])),
     ("session_id", JVal.s session_id)])
  let full_response := trimChars ((ws.map (fun w => w ++ [' '])).flatten)
  let completeEvent : StreamEvent :=
    [("type", JVal.s ("complete").toList),
     ("session_id", JVal.s session_id),
     ("message_id", JVal.s (persistId full_response))]
  sourcesEvent :: chunkEvents ++ [completeEvent]

/-- The mutable fields of `IndexingJob` the batch loop touches. -/
structure IndexingJob where
  status : String
  progress : ℚ
  total_files : Nat
  processed_files : Nat
  errors : List (List Char)
  deriving DecidableEq, Repr

/-- The recorded string `f"Error processing {file}: {err}"`. -/
def errEntry (file msg : List Char) : List Char :=
  ("Error processing ").toList ++ file ++ (": ").toList ++ msg

/-- Per-file result handling inside `IndexingService._process_files_batch`:
`asyncio.gather(..., return_exceptions=True)` turns a per-file exception into
a recorded error string, a success into `processed_files += 1` — no
fail-fast. -/
def recordFileResult (outcome : List Char → Except (List Char) Unit)
    (job : IndexingJob) (file : List Char) : IndexingJob :=
  match outcome file with
  | Except.error msg => { job with errors := job.errors ++ [errEntry file msg] }
  | Except.ok _ => { job with processed_files := job.processed_files + 1 }

/-- The error entries a run over `files` appends: one per failing file, in
order. -/
def failEntries (outcome : List Char → Except (List Char) Unit)
    (files : List (List Char)) : List (List Char) :=
  files.filterMap (fun f => match outcome f with
    | Except.error m => some (errEntry f m)
    | Except.ok _ => none)

/-- One batch of `IndexingService._process_files_batch`: record every file's
result, then publish `progress = processed / total * 100`. -/
def processOneBatch (outcome : List Char → Except (List Char) Unit)
    (job : IndexingJob) (batch : List (List Char)) : IndexingJob :=
  let job' := batch.foldl (recordFileResult outcome) job
  { job' with progress := (job'.processed_files : ℚ) / (job'.total_files : ℚ) * 100 }

/-- `IndexingService._process_files_batch`: the files sliced into batches of
`batch_size`, each processed in turn. -/
def processFilesBatch (batchSize : Nat)
    (outcome : List Char → Except (List Char) Unit)
    (job : IndexingJob) (files : List (List Char)) : IndexingJob :=
  (rangeSlices batchSize batchSize files).foldl (processOneBatch outcome) job

/-- `IndexingService._execute_indexing_job` on the path where discovery
succeeds: run the batches, then set `job.status = "completed"`
unconditionally — per-file errors never change the final status. -/
def executeIndexingJob (batchSize : Nat)
    (outcome : List Char → Except (List Char) Unit)
    (files : List (List Char)) : IndexingJob :=
  let job0 : IndexingJob :=
    { status := "running", progress := 0, total_files := files.length
      processed_files := 0, errors := [] }
  let job1 := processFilesBatch batchSize outcome job0 files
  { job1 with status := "completed" }

/-- Proof-side view of the Python `range(0, n, step)` slicing loop: take a
window of `size` items, advance by `step`, until the list is exhausted.
`rangeSlices` is proved equal to it for `step > 0`. -/
def windowsFrom (size step : Nat) : List α → List (List α)
  | [] => []
  | x :: rest =>
      if _h : step = 0 then []
      else (x :: rest).take size :: windowsFrom size step ((x :: rest).drop step)
  termination_by l => l.length
  decreasing_by
    simp only [List.length_cons, List.length_drop]
    omega

/-- Concatenate windows removing the intended overlap: the first window
whole, every later window minus its first `o` items. -/
def reconstructOverlap (o : Nat) : List (List α) → List α
  | [] => []
  | w :: ws => w ++ (ws.map (fun t => t.drop o)).flatten

/-- The punctuation class used to formalise the specification's words
"tokenized on whitespace/punctuation" (any reasonable class containing `.`
suffices to compare against the code). -/
def isPunct (c : Char) : Bool :=
  c = '.' ∨ c = ',' ∨ c = '!' ∨ c = '?' ∨ c = ';' ∨ c = ':'

/-- Separator class of the claimed tokenizer: whitespace or punctuation. -/
def isWSorPunct (c : Char) : Bool := isWS c || isPunct c

/-- Claimed (spec-side) query terms: case-insensitive, tokenized on
whitespace and punctuation, as a set (dedup). -/
def claimQueryTerms (q : List Char) : List (List Char) :=
  (splitAux isWSorPunct (lowerStr q) []).dedup

/-- Claimed (spec-side) lexical overlap: the fraction of query terms that
occur in the candidate text (same tokenization). -/
def claimLexOverlap (q t : List Char) : ℚ :=
  let qts := claimQueryTerms q
  let tts := splitAux isWSorPunct (lowerStr t) []
  if qts = [] then 0
  else ((qts.filter (fun w => w ∈ tts)).length : ℚ) / (qts.length : ℚ)

/-- Claimed (spec-side) combined score:
`0.7 × similarity_score + 0.3 × lexical_overlap`. -/
def claimCombined (q : List Char) (hit : SearchHit) (sim : ℚ) : ℚ :=
  (7 / 10) * sim + (3 / 10) * claimLexOverlap q hit.text

/-- The claimed order: descending combined score, ties broken by descending
similarity score, then by ascending original candidate position.  Entries are
`((hit, combined_score), similarity_score, original_index)`. -/
def claimRel (a b : (SearchHit × ℚ) × ℚ × Nat) : Prop :=
  b.1.2 < a.1.2 ∨ (a.1.2 = b.1.2 ∧
    (b.2.1 < a.2.1 ∨ (a.2.1 = b.2.1 ∧ a.2.2 ≤ b.2.2)))

instance : DecidableRel claimRel := fun a b =>
  inferInstanceAs (Decidable (b.1.2 < a.1.2 ∨ (a.1.2 = b.1.2 ∧
    (b.2.1 < a.2.1 ∨ (a.2.1 = b.2.1 ∧ a.2.2 ≤ b.2.2)))))

/-- The result list claim C1 prescribes: candidates scored with the claimed
combined score, sorted by `claimRel`, truncated to `top_k`. -/
def claimedRerank (q : List Char) (results : List (SearchHit × ℚ))
    (k : Nat) : List (SearchHit × ℚ) :=
  let indexed := results.enum.map
    (fun p => ((p.2.1, claimCombined q p.2.1 p.2.2), p.2.2, p.1))
  ((List.insertionSort claimRel indexed).map (fun x => x.1)).take k

/-- Claim C3 as stated: every chunk is within budget or carries
`chunk_oversized=true` in its metadata. -/
def C3Claim (maxSize : Nat) (text : List Char) (meta : Meta) : Prop :=
  ∀ c ∈ semanticChunkText maxSize text meta,
    tokenCount c.text ≤ maxSize ∨
      dictGet c.metadata "chunk_oversized" = some (MVal.b true)

instance (maxSize : Nat) (text : List Char) (meta : Meta) :
    Decidable (C3Claim maxSize text meta) :=
  inferInstanceAs (Decidable (∀ c ∈ _, _ ∨ _))

/-- The amended C3 invariant actually enforced by
`SemanticChunkingStrategy.chunk_text`: a chunk is within budget, or it is a
single sentence of an over-budget paragraph, kept whole, and the chunker adds
no `chunk_oversized` key to its metadata. -/
def SemChunkSpec (maxSize : Nat) (text : List Char) (meta : Meta)
    (c : Chunk) : Prop :=
  (tokenCount c.text ≤ maxSize ∨
    ∃ p ∈ splitParas text, maxSize < tokenCount p ∧
      ∃ s ∈ splitSentences p, c.text = s ∧ maxSize < tokenCount s) ∧
  dictGet c.metadata "chunk_oversized" = dictGet meta "chunk_oversized"

/-- Invariant carried chunk by chunk through the semantic chunker: within
budget, or the stripped form of an item satisfying `OS` (instantiated with
"is a sentence of an over-budget paragraph"). -/
def ChunkOK (OS : List Char → Prop) (maxSize : Nat) (c : Chunk) : Prop :=
  tokenCount c.text ≤ maxSize ∨
    ∃ s, OS s ∧ c.text = trimChars s ∧ maxSize < tokenCount s

/-- The chunk-index projection of a chunk list. -/
def chunkIndexList (cs : List Chunk) : List (Option MVal) :=
  cs.map (fun c => dictGet c.metadata "chunk_index")

/-- Invariant on the accumulated chunk list of the semantic chunker. -/
structure ChunksInv (OS : List Char → Prop) (maxSize : Nat) (meta : Meta)
    (cs : List Chunk) : Prop where
  idx_ok : chunkIndexList cs =
    (List.range cs.length).map (fun i => some (MVal.n i))
  ok : ∀ c ∈ cs, ChunkOK OS maxSize c
  form : ∀ c ∈ cs, ∃ raw i, c = createChunk raw meta i

/-- Invariant on the full loop state of the semantic chunker. -/
structure StInv (OS : List Char → Prop) (maxSize : Nat) (meta : Meta)
    (st : ChunkState) : Prop where
  ct_eq : st.ct = tokenCount st.cur
  cur_ok : tokenCount st.cur ≤ maxSize ∨ OS st.cur
  chunks_inv : ChunksInv OS maxSize meta st.chunks

/-! ### Lemmas about the word tokenizer -/

theorem splitAux_all_sep (p : Char → Bool) :
    ∀ (t : List Char), (∀ c ∈ t, p c = true) →
      ∀ acc, splitAux p t acc = if acc = [] then [] else [acc.reverse]
  | [], _, acc => rfl
  | c :: cs, ht, acc => by
      have hc : p c = true := ht c (List.mem_cons_self c cs)
      have ih := splitAux_all_sep p cs (fun d hd => ht d (List.mem_cons_of_mem c hd))
      by_cases h : acc = [] <;> simp [splitAux, hc, h, ih]

theorem splitAux_append_sep (p : Char → Bool) {c : Char} (hc : p c = true)
    (b : List Char) : ∀ (a acc : List Char),
      splitAux p (a ++ c :: b) acc = splitAux p a acc ++ splitAux p b []
  | [], acc => by
      by_cases h : acc = [] <;> simp [splitAux, hc, h]
  | x :: xs, acc => by
      simp only [List.cons_append, splitAux]
      by_cases hx : p x
      · simp only [hx, if_true]
        by_cases h : acc = [] <;>
          simp [h, splitAux_append_sep p hc b xs]
      · simp [hx, splitAux_append_sep p hc b xs]

theorem splitAux_append_all_sep (p : Char → Bool) {t : List Char}
    (ht : ∀ c ∈ t, p c = true) : ∀ (a acc : List Char),
      splitAux p (a ++ t) acc = splitAux p a acc
  | [], acc => by
      simpa [splitAux] using splitAux_all_sep p t ht acc
  | x :: xs, acc => by
      simp only [List.cons_append, splitAux]
      by_cases hx : p x
      · simp only [hx, if_true]
        by_cases h : acc = [] <;>
          simp [h, splitAux_append_all_sep p ht xs]
      · simp [hx, splitAux_append_all_sep p ht xs]

theorem pywords_ws_cons {c : Char} (hc : isWS c = true) (b : List Char) :
    pywords (c :: b) = pywords b := by
  simp [pywords, splitAux, hc]

theorem pywords_append_ws {c : Char} (hc : isWS c = true) (a b : List Char) :
    pywords (a ++ c :: b) = pywords a ++ pywords b :=
  splitAux_append_sep isWS hc b a []

theorem tokenCount_nil : tokenCount [] = 0 := rfl

theorem tokenCount_space (a b : List Char) :
    tokenCount (a ++ ' ' :: b) = tokenCount a + tokenCount b := by
  simp [tokenCount, pywords_append_ws (by decide : isWS ' ' = true)]

theorem tokenCount_nn (a b : List Char) :
    tokenCount (a ++ '\n' :: '\n' :: b) = tokenCount a + tokenCount b := by
  have h1 := pywords_append_ws (by decide : isWS '\n' = true) a ('\n' :: b)
  have h2 := pywords_ws_cons (by decide : isWS '\n' = true) b
  simp [tokenCount, h1, h2]

theorem pywords_dropWhile_ws : ∀ l : List Char,
    pywords (l.dropWhile isWS) = pywords l
  | [] => rfl
  | c :: cs => by
      by_cases hc : isWS c
      · rw [List.dropWhile_cons_of_pos hc, pywords_dropWhile_ws cs,
          pywords_ws_cons hc]
      · rw [List.dropWhile_cons_of_neg hc]

theorem rdropWhile_append_rtakeWhile (p : α → Bool) (l : List α) :
    l.rdropWhile p ++ l.rtakeWhile p = l := by
  rw [List.rdropWhile, List.rtakeWhile, ← List.reverse_append,
    List.takeWhile_append_dropWhile, List.reverse_reverse]

theorem pywords_rdropWhile_ws (l : List Char) :
    pywords (l.rdropWhile isWS) = pywords l := by
  conv_rhs => rw [← rdropWhile_append_rtakeWhile isWS l]
  exact (splitAux_append_all_sep isWS
    (fun c hc => List.mem_rtakeWhile_imp hc) (l.rdropWhile isWS) []).symm

theorem pywords_trim (l : List Char) : pywords (trimChars l) = pywords l := by
  rw [trimChars, pywords_rdropWhile_ws, pywords_dropWhile_ws]

theorem tokenCount_trim (l : List Char) : tokenCount (trimChars l) = tokenCount l := by
  simp [tokenCount, pywords_trim]

theorem dropWhile_rdropWhile_of_fix {m : List Char}
    (hm : m.dropWhile isWS = m) :
    (m.rdropWhile isWS).dropWhile isWS = m.rdropWhile isWS := by
  rcases hu : m.rdropWhile isWS with _ | ⟨x, u⟩
  · rfl
  · have hdec : m = (x :: u) ++ m.rtakeWhile isWS := by
      rw [← hu, rdropWhile_append_rtakeWhile]
    by_cases hx : isWS x
    · exfalso
      have h1 : m.dropWhile isWS = ((u ++ m.rtakeWhile isWS)).dropWhile isWS := by
        conv_lhs => rw [hdec]
        simp [List.dropWhile_cons_of_pos hx]
      have h2 : m.length ≤ u.length + (m.rtakeWhile isWS).length := by
        calc m.length = (m.dropWhile isWS).length := by rw [hm]
          _ = ((u ++ m.rtakeWhile isWS).dropWhile isWS).length := by rw [h1]
          _ ≤ (u ++ m.rtakeWhile isWS).length :=
              (List.dropWhile_sublist isWS).length_le
          _ = u.length + (m.rtakeWhile isWS).length := List.length_append ..
      have h3 : m.length = u.length + 1 + (m.rtakeWhile isWS).length := by
        conv_lhs => rw [hdec]
        simp [List.length_append]
        omega
      omega
    · simp [List.dropWhile_cons_of_neg hx]

theorem trimChars_idem (l : List Char) : trimChars (trimChars l) = trimChars l := by
  have h1 : (trimChars l).dropWhile isWS = trimChars l := by
    rw [trimChars]
    exact dropWhile_rdropWhile_of_fix (List.dropWhile_idempotent isWS l)
  rw [trimChars, h1, trimChars, List.rdropWhile_idempotent]

theorem mem_splitSentences_trimmed {p s : List Char}
    (hs : s ∈ splitSentences p) : trimChars s = s := by
  rcases List.mem_filter.mp hs with ⟨hmem, _⟩
  rcases List.mem_map.mp hmem with ⟨r, _, rfl⟩
  exact trimChars_idem r

theorem splitAux_mem_props (p : Char → Bool) :
    ∀ (l acc : List Char), (∀ c ∈ acc, p c = false) →
      ∀ w ∈ splitAux p l acc, w ≠ [] ∧ ∀ c ∈ w, p c = false
  | [], acc, hacc, w, hw => by
      by_cases h : acc = []
      · simp [splitAux, h] at hw
      · simp only [splitAux, h, if_false, List.mem_singleton] at hw
        subst hw
        refine ⟨by simpa using h, fun c hc => hacc c (List.mem_reverse.mp hc)⟩
  | x :: xs, acc, hacc, w, hw => by
      by_cases hx : p x
      · by_cases h : acc = []
        · simp only [splitAux, hx, if_true, h, if_true] at hw
          exact splitAux_mem_props p xs [] (by simp) w hw
        · simp only [splitAux, hx, if_true, h, if_false, List.mem_cons] at hw
          rcases hw with rfl | hw
          · exact ⟨by simpa using h, fun c hc => hacc c (List.mem_reverse.mp hc)⟩
          · exact splitAux_mem_props p xs [] (by simp) w hw
      · simp only [splitAux, hx, if_false] at hw
        refine splitAux_mem_props p xs (x :: acc) ?_ w hw
        intro c hc
        rcases List.mem_cons.mp hc with rfl | hc
        · simpa using hx
        · exact hacc c hc

theorem pywords_mem_props {l w : List Char} (hw : w ∈ pywords l) :
    w ≠ [] ∧ ∀ c ∈ w, isWS c = false :=
  splitAux_mem_props isWS l [] (by simp) w hw

theorem splitAux_word (p : Char → Bool) :
    ∀ (w : List Char), w ≠ [] → (∀ c ∈ w, p c = false) →
      ∀ acc, splitAux p w acc = [acc.reverse ++ w]
  | [], hne, _, _ => absurd rfl hne
  | x :: xs, _, hw, acc => by
      have hx : p x = false := hw x (List.mem_cons_self x xs)
      by_cases hxs : xs = []
      · subst hxs
        simp [splitAux, hx]
      · have ih := splitAux_word p xs hxs
          (fun c hc => hw c (List.mem_cons_of_mem x hc)) (x :: acc)
        simp only [splitAux, hx, Bool.false_eq_true, if_false, ih,
          List.reverse_cons, List.append_assoc, List.cons_append,
          List.nil_append]

theorem pywords_word {w : List Char} (hne : w ≠ [])
    (hw : ∀ c ∈ w, isWS c = false) : pywords w = [w] := by
  simpa using splitAux_word isWS w hne hw []

theorem pywords_intercalate :
    ∀ (parts : List (List Char)),
      (∀ w ∈ parts, w ≠ [] ∧ ∀ c ∈ w, isWS c = false) →
      pywords (List.intercalate [' '] parts) = parts
  | [], _ => rfl
  | [w], h => by
      have hw := h w (List.mem_singleton.mpr rfl)
      simpa [List.intercalate] using pywords_word hw.1 hw.2
  | w :: w' :: rest, h => by
      have hw := h w (List.mem_cons_self ..)
      have hrest : ∀ u ∈ w' :: rest, u ≠ [] ∧ ∀ c ∈ u, isWS c = false :=
        fun u hu => h u (List.mem_cons_of_mem w hu)
      have step : List.intercalate [' '] (w :: w' :: rest) =
          w ++ ' ' :: List.intercalate [' '] (w' :: rest) := by
        simp [List.intercalate, List.intersperse_cons_cons]
      rw [step, pywords_append_ws (by decide : isWS ' ' = true),
        pywords_word hw.1 hw.2, pywords_intercalate (w' :: rest) hrest,
        List.singleton_append]

/-! ### Lemmas about the window slicing -/

theorem sliceCount_zero {step : Nat} (hs : step ≠ 0) : sliceCount 0 step = 0 := by
  rw [sliceCount]
  exact Nat.div_eq_of_lt (by omega)

theorem sliceCount_succ {n step : Nat} (hs : step ≠ 0) (hn : n ≠ 0) :
    sliceCount n step = sliceCount (n - step) step + 1 := by
  rcases le_or_lt n step with h | h
  · have h1 : n - step = 0 := by omega
    rw [h1, sliceCount_zero hs, sliceCount]
    have hlt : (n + step - 1) / step < 2 :=
      Nat.div_lt_of_lt_mul (by omega)
    have hge : 1 ≤ (n + step - 1) / step :=
      (Nat.le_div_iff_mul_le (by omega)).mpr (by omega)
    omega
  · rw [sliceCount, sliceCount]
    have e1 : n + step - 1 = (n - 1) + step := by omega
    have e2 : n - step + step - 1 = (n - 1 - step) + step := by omega
    rw [e1, e2, Nat.add_div_right _ (by omega), Nat.add_div_right _ (by omega),
      Nat.div_eq_sub_div (by omega) (by omega : step ≤ n - 1)]

theorem rangeSlices_eq_windowsFrom (size step : Nat) (hs : step ≠ 0) :
    ∀ l : List α, rangeSlices size step l = windowsFrom size step l
  | [] => by
      simp [rangeSlices, windowsFrom, hs, sliceCount_zero hs]
  | x :: rest => by
      have ih := rangeSlices_eq_windowsFrom size step hs ((x :: rest).drop step)
      rw [windowsFrom, dif_neg hs, ← ih]
      simp only [rangeSlices, hs, if_false]
      have hcnt : sliceCount (x :: rest).length step =
          sliceCount ((x :: rest).drop step).length step + 1 := by
        rw [List.length_drop]
        exact sliceCount_succ hs (by simp)
      rw [hcnt, List.range_succ_eq_map, List.map_cons, List.map_map]
      congr 1
      · simp
      · refine List.map_congr_left (fun j _ => ?_)
        simp only [Function.comp_apply, List.drop_drop]
        congr 2
        rw [Nat.succ_mul]
        omega
  termination_by l => l.length
  decreasing_by
    simp only [List.length_cons, List.length_drop]
    omega

theorem flatten_map_drop_windowsFrom {size step o : Nat}
    (hsize : step + o = size) (hs : step ≠ 0) :
    ∀ u : List α,
      ((windowsFrom size step u).map (fun t => t.drop o)).flatten = u.drop o
  | [] => by simp [windowsFrom]
  | x :: rest => by
      have ih := flatten_map_drop_windowsFrom hsize hs ((x :: rest).drop step)
      rw [windowsFrom, dif_neg hs, List.map_cons, List.flatten_cons, ih,
        List.drop_drop]
      have hso : step + o = size := hsize
      set u : List α := x :: rest with hu
      have key : (u.take size).drop o ++ u.drop (step + o) = u.drop o := by
        rw [hso]
        rcases Nat.le_total u.length size with h | h
        · rw [List.take_of_length_le h, List.drop_eq_nil_of_le h,
            List.append_nil]
        · conv_rhs => rw [← List.take_append_drop size u]
          rw [List.drop_append_eq_append_drop]
          have : o - (u.take size).length = 0 := by
            rw [List.length_take]
            omega
          rw [this, List.drop_zero]
      exact key
  termination_by u => u.length
  decreasing_by
    simp only [List.length_cons, List.length_drop]
    omega

theorem reconstructOverlap_windowsFrom {size step o : Nat}
    (hsize : step + o = size) (hs : step ≠ 0) (l : List α) :
    reconstructOverlap o (windowsFrom size step l) = l := by
  rcases l with _ | ⟨x, rest⟩
  · simp [windowsFrom, reconstructOverlap]
  · rw [windowsFrom, dif_neg hs, reconstructOverlap,
      flatten_map_drop_windowsFrom hsize hs, List.drop_drop]
    have : step + o = size := hsize
    rw [this, List.take_append_drop]

theorem reconstructOverlap_zero (ws : List (List α)) :
    reconstructOverlap 0 ws = ws.flatten := by
  cases ws <;> simp [reconstructOverlap]

theorem flatten_windowsFrom {bs : Nat} (hs : bs ≠ 0) (l : List α) :
    (windowsFrom bs bs l).flatten = l := by
  have h := reconstructOverlap_windowsFrom
    (show bs + 0 = bs by omega) hs (l := l)
  rw [reconstructOverlap_zero] at h
  exact h

/-! ### Lemmas about metadata dictionaries and `_create_chunk` -/

theorem dictGet_createChunk_index (t : List Char) (meta : Meta) (i : Nat) :
    dictGet (createChunk t meta i).metadata "chunk_index" = some (MVal.n i) := by
  simp [createChunk, dictGet, List.find?]

theorem dictGet_createChunk_tokens (t : List Char) (meta : Meta) (i : Nat) :
    dictGet (createChunk t meta i).metadata "token_count" =
      some (MVal.n (tokenCount t)) := by
  simp [createChunk, dictGet, List.find?]

theorem dictGet_createChunk_other (t : List Char) (meta : Meta) (i : Nat)
    {k : String} (hk1 : k ≠ "chunk_index") (hk2 : k ≠ "token_count") :
    dictGet (createChunk t meta i).metadata k = dictGet meta k := by
  have h1 : ("chunk_index" = k) = False := by
    simp [Ne.symm hk1]
  have h2 : ("token_count" = k) = False := by
    simp [Ne.symm hk2]
  simp [createChunk, dictGet, List.find?, h1, h2]

/-! ### The semantic chunker invariant -/

theorem chunksInv_nil (OS : List Char → Prop) (maxSize : Nat) (meta : Meta) :
    ChunksInv OS maxSize meta [] := by
  refine ⟨rfl, ?_, ?_⟩ <;> intro c hc <;> simp at hc

theorem chunksInv_snoc {OS : List Char → Prop} {maxSize : Nat} {meta : Meta}
    {cs : List Chunk} (h : ChunksInv OS maxSize meta cs)
    {cur : List Char} (hcur : tokenCount cur ≤ maxSize ∨ OS cur) :
    ChunksInv OS maxSize meta (cs ++ [createChunk cur meta cs.length]) := by
  refine ⟨?_, ?_, ?_⟩
  · have hidx := h.idx_ok
    simp only [chunkIndexList, List.map_append, List.map_cons, List.map_nil,
      List.length_append, List.length_cons, List.length_nil] at hidx ⊢
    rw [dictGet_createChunk_index, hidx, List.range_succ, List.map_append,
      List.map_cons, List.map_nil]
  · intro c hc
    rcases List.mem_append.mp hc with hc | hc
    · exact h.ok c hc
    · have hc' : c = createChunk cur meta cs.length := by simpa using hc
      subst hc'
      rcases hcur with hle | hos
      · exact Or.inl (by simpa [createChunk, tokenCount_trim] using hle)
      · rcases le_or_lt (tokenCount cur) maxSize with hle | hgt
        · exact Or.inl (by simpa [createChunk, tokenCount_trim] using hle)
        · exact Or.inr ⟨cur, hos, rfl, hgt⟩
  · intro c hc
    rcases List.mem_append.mp hc with hc | hc
    · exact h.form c hc
    · exact ⟨cur, cs.length, by simpa using hc⟩

theorem stepSentence_flush {maxSize : Nat} {meta : Meta} {st : ChunkState}
    {s : List Char} (hc : st.ct + tokenCount s > maxSize ∧ st.cur ≠ []) :
    stepSentence maxSize meta st s =
      ⟨st.chunks ++ [createChunk st.cur meta st.chunks.length],
        s, tokenCount s⟩ := by
  simp only [stepSentence]
  rw [if_pos hc]

theorem stepSentence_merge_nil {maxSize : Nat} {meta : Meta} {st : ChunkState}
    {s : List Char} (hc : ¬(st.ct + tokenCount s > maxSize ∧ st.cur ≠ []))
    (he : st.cur = []) :
    stepSentence maxSize meta st s =
      ⟨st.chunks, s, st.ct + tokenCount s⟩ := by
  simp only [stepSentence]
  rw [if_neg hc, if_pos he]

theorem stepSentence_merge_cons {maxSize : Nat} {meta : Meta} {st : ChunkState}
    {s : List Char} (hc : ¬(st.ct + tokenCount s > maxSize ∧ st.cur ≠ []))
    (he : ¬st.cur = []) :
    stepSentence maxSize meta st s =
      ⟨st.chunks, st.cur ++ ' ' :: s, st.ct + tokenCount s⟩ := by
  simp only [stepSentence]
  rw [if_neg hc, if_neg he]

theorem stepSentence_inv {OS : List Char → Prop} {maxSize : Nat} {meta : Meta}
    {st : ChunkState} {s : List Char} (hOS : OS s)
    (h : StInv OS maxSize meta st) :
    StInv OS maxSize meta (stepSentence maxSize meta st s) := by
  by_cases hc : st.ct + tokenCount s > maxSize ∧ st.cur ≠ []
  · rw [stepSentence_flush hc]
    exact ⟨rfl, Or.inr hOS, chunksInv_snoc h.chunks_inv h.cur_ok⟩
  · by_cases he : st.cur = []
    · have hct : st.ct = 0 := by
        have hce := h.ct_eq
        rw [he] at hce
        simpa [tokenCount_nil] using hce
      rw [stepSentence_merge_nil hc he]
      exact ⟨by simp [hct], Or.inr hOS, h.chunks_inv⟩
    · have hle : st.ct + tokenCount s ≤ maxSize := by
        rcases not_and_or.mp hc with h1 | h2
        · omega
        · exact absurd (not_not.mp h2) he
      rw [stepSentence_merge_cons hc he]
      refine ⟨?_, Or.inl ?_, h.chunks_inv⟩
      · show st.ct + tokenCount s = tokenCount (st.cur ++ ' ' :: s)
        rw [tokenCount_space, h.ct_eq]
      · show tokenCount (st.cur ++ ' ' :: s) ≤ maxSize
        rw [tokenCount_space, ← h.ct_eq]
        exact hle

theorem foldl_stepSentence_inv {OS : List Char → Prop} {maxSize : Nat}
    {meta : Meta} :
    ∀ {sents : List (List Char)} {st : ChunkState},
      (∀ s ∈ sents, OS s) → StInv OS maxSize meta st →
      StInv OS maxSize meta (sents.foldl (stepSentence maxSize meta) st)
  | [], _, _, h => h
  | s :: rest, st, hOS, h => by
      rw [List.foldl_cons]
      exact foldl_stepSentence_inv
        (fun u hu => hOS u (List.mem_cons_of_mem s hu))
        (stepSentence_inv (hOS s (List.mem_cons_self ..)) h)

theorem stepParagraph_sentences {maxSize : Nat} {meta : Meta}
    {st : ChunkState} {p : List Char} (hbig : tokenCount p > maxSize) :
    stepParagraph maxSize meta st p =
      (splitSentences p).foldl (stepSentence maxSize meta) st := by
  simp only [stepParagraph]
  rw [if_pos hbig]

theorem stepParagraph_flush {maxSize : Nat} {meta : Meta} {st : ChunkState}
    {p : List Char} (hbig : ¬tokenCount p > maxSize)
    (hc : st.ct + tokenCount p > maxSize ∧ st.cur ≠ []) :
    stepParagraph maxSize meta st p =
      ⟨st.chunks ++ [createChunk st.cur meta st.chunks.length],
        p, tokenCount p⟩ := by
  simp only [stepParagraph]
  rw [if_neg hbig, if_pos hc]

theorem stepParagraph_merge_nil {maxSize : Nat} {meta : Meta} {st : ChunkState}
    {p : List Char} (hbig : ¬tokenCount p > maxSize)
    (hc : ¬(st.ct + tokenCount p > maxSize ∧ st.cur ≠ []))
    (he : st.cur = []) :
    stepParagraph maxSize meta st p =
      ⟨st.chunks, p, st.ct + tokenCount p⟩ := by
  simp only [stepParagraph]
  rw [if_neg hbig, if_neg hc, if_pos he]

theorem stepParagraph_merge_cons {maxSize : Nat} {meta : Meta}
    {st : ChunkState} {p : List Char} (hbig : ¬tokenCount p > maxSize)
    (hc : ¬(st.ct + tokenCount p > maxSize ∧ st.cur ≠ []))
    (he : ¬st.cur = []) :
    stepParagraph maxSize meta st p =
      ⟨st.chunks, st.cur ++ '\n' :: '\n' :: p, st.ct + tokenCount p⟩ := by
  simp only [stepParagraph]
  rw [if_neg hbig, if_neg hc, if_neg he]

theorem stepParagraph_inv {OS : List Char → Prop} {maxSize : Nat} {meta : Meta}
    {st : ChunkState} {p : List Char}
    (hp : maxSize < tokenCount p → ∀ s ∈ splitSentences p, OS s)
    (h : StInv OS maxSize meta st) :
    StInv OS maxSize meta (stepParagraph maxSize meta st p) := by
  by_cases hbig : tokenCount p > maxSize
  · rw [stepParagraph_sentences hbig]
    exact foldl_stepSentence_inv (hp hbig) h
  · by_cases hc : st.ct + tokenCount p > maxSize ∧ st.cur ≠ []
    · rw [stepParagraph_flush hbig hc]
      exact ⟨rfl, Or.inl (show tokenCount p ≤ maxSize by omega),
        chunksInv_snoc h.chunks_inv h.cur_ok⟩
    · by_cases he : st.cur = []
      · have hct : st.ct = 0 := by
          have hce := h.ct_eq
          rw [he] at hce
          simpa [tokenCount_nil] using hce
        rw [stepParagraph_merge_nil hbig hc he]
        exact ⟨by simp [hct], Or.inl (show tokenCount p ≤ maxSize by omega),
          h.chunks_inv⟩
      · have hle : st.ct + tokenCount p ≤ maxSize := by
          rcases not_and_or.mp hc with h1 | h2
          · omega
          · exact absurd (not_not.mp h2) he
        rw [stepParagraph_merge_cons hbig hc he]
        refine ⟨?_, Or.inl ?_, h.chunks_inv⟩
        · show st.ct + tokenCount p = tokenCount (st.cur ++ '\n' :: '\n' :: p)
          rw [tokenCount_nn, h.ct_eq]
        · show tokenCount (st.cur ++ '\n' :: '\n' :: p) ≤ maxSize
          rw [tokenCount_nn, ← h.ct_eq]
          exact hle

theorem foldl_stepParagraph_inv {OS : List Char → Prop} {maxSize : Nat}
    {meta : Meta} :
    ∀ {ps : List (List Char)} {st : ChunkState},
      (∀ p ∈ ps, maxSize < tokenCount p → ∀ s ∈ splitSentences p, OS s) →
      StInv OS maxSize meta st →
      StInv OS maxSize meta (ps.foldl (stepParagraph maxSize meta) st)
  | [], _, _, h => h
  | p :: rest, st, hps, h => by
      rw [List.foldl_cons]
      exact foldl_stepParagraph_inv
        (fun u hu => hps u (List.mem_cons_of_mem p hu))
        (stepParagraph_inv (hps p (List.mem_cons_self ..)) h)

theorem semanticChunkText_chunksInv (maxSize : Nat) (meta : Meta)
    (OS : List Char → Prop) (text : List Char)
    (hOS : ∀ p ∈ splitParas text, maxSize < tokenCount p →
      ∀ s ∈ splitSentences p, OS s) :
    ChunksInv OS maxSize meta (semanticChunkText maxSize text meta) := by
  have h0 : StInv OS maxSize meta ⟨[], [], 0⟩ :=
    ⟨by simp [tokenCount_nil], Or.inl (by simp [tokenCount_nil]),
      chunksInv_nil OS maxSize meta⟩
  have hfin := foldl_stepParagraph_inv hOS h0
  rw [semanticChunkText]
  set st := (splitParas text).foldl (stepParagraph maxSize meta) ⟨[], [], 0⟩
  by_cases he : st.cur ≠ []
  · rw [if_pos he]
    exact chunksInv_snoc hfin.chunks_inv hfin.cur_ok
  · rw [if_neg he]
    exact hfin.chunks_inv

/-! ### Stability of the rerank sort -/

theorem filter_orderedInsert_eqscore {x : SearchHit × ℚ} {s : ℚ}
    (hx : x.2 = s) : ∀ l : List (SearchHit × ℚ),
      (List.orderedInsert scoreGE x l).filter (fun y => y.2 = s) =
        x :: l.filter (fun y => y.2 = s)
  | [] => by simp [List.orderedInsert, hx]
  | b :: l => by
      by_cases hr : scoreGE x b
      · rw [List.orderedInsert, if_pos hr]
        simp [hx]
      · have hb : ¬(b.2 = s) := by
          rw [scoreGE] at hr
          push_neg at hr
          rw [← hx]
          exact fun hbs => absurd (le_of_eq hbs) (not_le.mpr hr)
        rw [List.orderedInsert, if_neg hr, List.filter_cons,
          if_neg (by simpa using hb), filter_orderedInsert_eqscore hx l,
          List.filter_cons, if_neg (by simpa using hb)]

theorem filter_orderedInsert_nescore {x : SearchHit × ℚ} {s : ℚ}
    (hx : ¬x.2 = s) : ∀ l : List (SearchHit × ℚ),
      (List.orderedInsert scoreGE x l).filter (fun y => y.2 = s) =
        l.filter (fun y => y.2 = s)
  | [] => by simp [List.orderedInsert, hx]
  | b :: l => by
      by_cases hr : scoreGE x b
      · rw [List.orderedInsert, if_pos hr, List.filter_cons,
          if_neg (by simpa using hx)]
      · rw [List.orderedInsert, if_neg hr, List.filter_cons,
          filter_orderedInsert_nescore hx l, List.filter_cons]

theorem filter_insertionSort_eqscore (s : ℚ) :
    ∀ l : List (SearchHit × ℚ),
      (List.insertionSort scoreGE l).filter (fun y => y.2 = s) =
        l.filter (fun y => y.2 = s)
  | [] => rfl
  | x :: l => by
      rw [List.insertionSort]
      by_cases hx : x.2 = s
      · rw [filter_orderedInsert_eqscore hx, filter_insertionSort_eqscore s l,
          List.filter_cons, if_pos (by simpa using hx)]
      · rw [filter_orderedInsert_nescore hx, filter_insertionSort_eqscore s l,
          List.filter_cons, if_neg (by simpa using hx)]

/-! ### The indexing job accumulates errors without aborting -/

theorem foldl_recordFileResult (outcome : List Char → Except (List Char) Unit) :
    ∀ (fs : List (List Char)) (job : IndexingJob),
      (fs.foldl (recordFileResult outcome) job).processed_files =
          job.processed_files +
            (fs.filter (fun f => (outcome f).isOk)).length ∧
        (fs.foldl (recordFileResult outcome) job).errors =
          job.errors ++ failEntries outcome fs ∧
        (fs.foldl (recordFileResult outcome) job).status = job.status ∧
        (fs.foldl (recordFileResult outcome) job).total_files = job.total_files
  | [], job => by simp [failEntries]
  | f :: fs, job => by
      have ih := foldl_recordFileResult outcome fs (recordFileResult outcome job f)
      rw [List.foldl_cons]
      rcases ho : outcome f with m | u
      · have hjob : recordFileResult outcome job f =
            { job with errors := job.errors ++ [errEntry f m] } := by
          simp [recordFileResult, ho]
        rw [hjob] at ih ⊢
        refine ⟨?_, ?_, ?_, ?_⟩
        · rw [ih.1]
          simp [List.filter_cons, ho, Except.isOk, Except.toBool]
        · rw [ih.2.1]
          simp [failEntries, List.filterMap_cons, ho]
        · exact ih.2.2.1
        · exact ih.2.2.2
      · have hjob : recordFileResult outcome job f =
            { job with processed_files := job.processed_files + 1 } := by
          simp [recordFileResult, ho]
        rw [hjob] at ih ⊢
        refine ⟨?_, ?_, ?_, ?_⟩
        · rw [ih.1]
          simp [List.filter_cons, ho, Except.isOk, Except.toBool]
          omega
        · rw [ih.2.1]
          simp [failEntries, List.filterMap_cons, ho]
        · exact ih.2.2.1
        · exact ih.2.2.2

theorem processOneBatch_fields (outcome : List Char → Except (List Char) Unit)
    (job : IndexingJob) (batch : List (List Char)) :
    (processOneBatch outcome job batch).processed_files =
        job.processed_files + (batch.filter (fun f => (outcome f).isOk)).length ∧
      (processOneBatch outcome job batch).errors =
        job.errors ++ failEntries outcome batch ∧
      (processOneBatch outcome job batch).status = job.status ∧
      (processOneBatch outcome job batch).total_files = job.total_files := by
  have h := foldl_recordFileResult outcome batch job
  simp only [processOneBatch]
  exact ⟨h.1, h.2.1, h.2.2.1, h.2.2.2⟩

theorem foldl_processOneBatch (outcome : List Char → Except (List Char) Unit) :
    ∀ (batches : List (List (List Char))) (job : IndexingJob),
      (batches.foldl (processOneBatch outcome) job).processed_files =
          job.processed_files +
            (batches.flatten.filter (fun f => (outcome f).isOk)).length ∧
        (batches.foldl (processOneBatch outcome) job).errors =
          job.errors ++ failEntries outcome batches.flatten ∧
        (batches.foldl (processOneBatch outcome) job).status = job.status ∧
        (batches.foldl (processOneBatch outcome) job).total_files =
          job.total_files
  | [], job => by simp [failEntries]
  | b :: batches, job => by
      have ih := foldl_processOneBatch outcome batches (processOneBatch outcome job b)
      have hb := processOneBatch_fields outcome job b
      rw [List.foldl_cons]
      refine ⟨?_, ?_, ?_, ?_⟩
      · rw [ih.1, hb.1]
        simp [List.filter_append]
        omega
      · rw [ih.2.1, hb.2.1]
        simp [failEntries, List.filterMap_append]
      · rw [ih.2.2.1, hb.2.2.1]
      · rw [ih.2.2.2, hb.2.2.2]

/-! ### Qdrant upsert -/

theorem upsertPoint_pos {store : List StoredPoint} {p : StoredPoint}
    (h : store.any (fun q => q.id = p.id) = true) :
    upsertPoint store p = store.map (fun q => if q.id = p.id then p else q) := by
  simp only [upsertPoint]
  rw [if_pos h]

theorem upsertPoint_neg {store : List StoredPoint} {p : StoredPoint}
    (h : ¬store.any (fun q => q.id = p.id) = true) :
    upsertPoint store p = store ++ [p] := by
  simp only [upsertPoint]
  rw [if_neg h]

theorem upsertPoint_idem (store : List StoredPoint) (p : StoredPoint) :
    upsertPoint (upsertPoint store p) p = upsertPoint store p := by
  by_cases h : store.any (fun q => q.id = p.id) = true
  · rw [upsertPoint_pos h]
    have h2 : (store.map (fun q => if q.id = p.id then p else q)).any
        (fun q => q.id = p.id) = true := by
      rcases List.any_eq_true.mp h with ⟨q, hq, hqe⟩
      refine List.any_eq_true.mpr ⟨p, ?_, by simp⟩
      have he : (if q.id = p.id then p else q) = p := if_pos (by simpa using hqe)
      have hm : (if q.id = p.id then p else q) ∈
          store.map (fun r => if r.id = p.id then p else r) :=
        List.mem_map_of_mem (fun r => if r.id = p.id then p else r) hq
      rw [he] at hm
      exact hm
    rw [upsertPoint_pos h2, List.map_map]
    refine List.map_congr_left (fun q _ => ?_)
    by_cases hq : q.id = p.id <;> simp [hq]
  · rw [upsertPoint_neg h]
    have h2 : (store ++ [p]).any (fun q => q.id = p.id) = true :=
      List.any_eq_true.mpr ⟨p, List.mem_append_right _ (by simp), by simp⟩
    rw [upsertPoint_pos h2, List.map_append]
    have hmap : store.map (fun q => if q.id = p.id then p else q) = store := by
      conv_rhs => rw [← List.map_id store]
      refine List.map_congr_left (fun q hq => ?_)
      rw [if_neg, id]
      intro hqe
      refine h (List.any_eq_true.mpr ⟨q, hq, by simpa using hqe⟩)
    simp [hmap]

theorem upsertPoint_filter_id {store : List StoredPoint} {p : StoredPoint}
    (hnodup : (store.map (fun q => q.id)).Nodup) :
    (upsertPoint store p).filter (fun q => q.id = p.id) = [p] := by
  by_cases h : store.any (fun q => q.id = p.id) = true
  · rw [upsertPoint_pos h]
    rcases List.any_eq_true.mp h with ⟨q0, hq0, hq0e⟩
    have hq0e' : q0.id = p.id := by simpa using hq0e
    rcases List.append_of_mem hq0 with ⟨l1, l2, rfl⟩
    rw [List.map_append, List.map_cons] at hnodup
    have hsplit := List.nodup_append.mp hnodup
    have hno1 : ∀ q ∈ l1, ¬q.id = p.id := by
      intro q hq hqe
      refine hsplit.2.2 (List.mem_map_of_mem _ hq) ?_
      rw [hqe, ← hq0e']
      exact List.mem_cons_self ..
    have hno2 : ∀ q ∈ l2, ¬q.id = p.id := by
      intro q hq hqe
      have hnc := List.nodup_cons.mp hsplit.2.1
      refine hnc.1 ?_
      rw [hq0e', ← hqe]
      exact List.mem_map_of_mem _ hq
    have e1 : l1.map (fun q => if q.id = p.id then p else q) = l1 := by
      conv_rhs => rw [← List.map_id l1]
      exact List.map_congr_left (fun q hq => by rw [if_neg (hno1 q hq), id])
    have e2 : l2.map (fun q => if q.id = p.id then p else q) = l2 := by
      conv_rhs => rw [← List.map_id l2]
      exact List.map_congr_left (fun q hq => by rw [if_neg (hno2 q hq), id])
    have f1 : l1.filter (fun q => q.id = p.id) = [] :=
      List.filter_eq_nil_iff.mpr (fun q hq => by simpa using hno1 q hq)
    have f2 : l2.filter (fun q => q.id = p.id) = [] :=
      List.filter_eq_nil_iff.mpr (fun q hq => by simpa using hno2 q hq)
    rw [List.map_append, List.map_cons, if_pos hq0e', List.filter_append,
      List.filter_cons, e1, e2, f1, f2, if_pos (by simp)]
    simp
  · rw [upsertPoint_neg h, List.filter_append]
    have f1 : store.filter (fun q => q.id = p.id) = [] :=
      List.filter_eq_nil_iff.mpr (fun q hq => by
        simpa using fun hqe => h (List.any_eq_true.mpr ⟨q, hq, by simpa using hqe⟩))
    rw [f1]
    simp

theorem dictGet_fixedMeta_index (meta : Meta) (j tc st et : Nat) :
    dictGet (meta ++ [("chunk_index", MVal.n j), ("token_count", MVal.n tc),
      ("start_token", MVal.n st), ("end_token", MVal.n et)]) "chunk_index" =
      some (MVal.n j) := by
  simp [dictGet, List.find?]

/-! ### Claims -/

/-- C9: batched embedding returns exactly one vector per input text, in input
order, for every positive batch size — subdividing drops and permutes
nothing.  The embedding capability is the function `f`. -/
theorem embed_batch_order_and_length (f : List Char → List ℚ) (bs : Nat)
    (h : 0 < bs) (texts : List (List Char)) :
    generateEmbeddingsBatch f bs texts = texts.map f := by
  have hbs : bs ≠ 0 := by omega
  rw [generateEmbeddingsBatch, rangeSlices_eq_windowsFrom bs bs hbs,
    ← List.map_flatten, flatten_windowsFrom hbs]

/-- Witness for C9 at batch size 2 and three concrete texts. -/
theorem embed_batch_order_and_length_witness :
    0 < 2 ∧ generateEmbeddingsBatch (fun t => [(t.length : ℚ)]) 2
      [("a").toList, ("bc").toList, ("def").toList] =
      [("a").toList, ("bc").toList, ("def").toList].map
        (fun t => [(t.length : ℚ)]) :=
  ⟨by decide, embed_batch_order_and_length (fun t => [(t.length : ℚ)]) 2
    (by decide) [("a").toList, ("bc").toList, ("def").toList]⟩

/-- C10: the semantic chunking output is independent of the stored `overlap`
parameter — two strategy instances agreeing on `max_chunk_size` produce
identical chunk sequences on every input. -/
theorem semantic_chunking_overlap_independent
    (s1 s2 : SemanticChunkingStrategy)
    (h : s1.max_chunk_size = s2.max_chunk_size)
    (text : List Char) (meta : Meta) :
    s1.chunkText text meta = s2.chunkText text meta := by
  rw [SemanticChunkingStrategy.chunkText, SemanticChunkingStrategy.chunkText, h]

/-- Witness for C10: overlap 50 versus overlap 999 at the same budget. -/
theorem semantic_chunking_overlap_independent_witness :
    (SemanticChunkingStrategy.mk 512 50).max_chunk_size =
        (SemanticChunkingStrategy.mk 512 999).max_chunk_size ∧
      (SemanticChunkingStrategy.mk 512 50).chunkText ("a b").toList [] =
        (SemanticChunkingStrategy.mk 512 999).chunkText ("a b").toList [] :=
  ⟨rfl, semantic_chunking_overlap_independent
    (SemanticChunkingStrategy.mk 512 50) (SemanticChunkingStrategy.mk 512 999)
    rfl (("a b").toList) []⟩

/-- C7: for every input, the chunk sequence of either strategy carries
`chunk_index` values that are exactly `0..n-1` in order. -/
theorem chunk_ordinals_contiguous (maxSize size o : Nat) (text : List Char)
    (meta : Meta) :
    chunkIndexList (semanticChunkText maxSize text meta) =
      (List.range (semanticChunkText maxSize text meta).length).map
        (fun i => some (MVal.n i)) ∧
    chunkIndexList (fixedChunkText size o text meta) =
      (List.range (fixedChunkText size o text meta).length).map
        (fun i => some (MVal.n i)) := by
  constructor
  · exact (semanticChunkText_chunksInv maxSize meta (fun _ => True) text
      (fun _ _ _ _ _ => trivial)).idx_ok
  · by_cases hstep : size - o = 0
    · simp [fixedChunkText, hstep, chunkIndexList]
    · simp only [fixedChunkText]
      rw [if_neg hstep, chunkIndexList, List.map_map, List.length_map,
        List.length_range]
      refine List.map_congr_left (fun j _ => ?_)
      exact dictGet_fixedMeta_index meta j _ _ _

/-- C2 (amended): a failing query embedding does NOT propagate out of
`query_knowledge_base` — the enclosing `except` catches it and the call
returns the fallback general-knowledge answer with empty sources. -/
theorem query_embedding_failure_gives_fallback (e : String)
    (searchFn : List ℚ → Nat → ℚ → Except String (List (SearchHit × ℚ)))
    (genResponse : List ChatMsg → List Char)
    (query : List Char) (history : List ChatMsg)
    (maxResults : Nat) (scoreThreshold : ℚ) :
    queryKnowledgeBase (Except.error e) searchFn genResponse query history
        maxResults scoreThreshold =
      Except.ok (genResponse (fallbackMessages query), []) := rfl

/-- Counterexample to C2 as stated: with a failing embedding the call still
returns an answer (an `ok` with the fallback text and no sources) instead of
raising. -/
theorem query_embedding_failure_returns_answer :
    queryKnowledgeBase (Except.error "embedding failed")
        (fun _ _ _ => Except.ok []) (fun _ => ("General answer").toList)
        ("q").toList [] 5 (7 / 10) =
      Except.ok (("General answer").toList, []) := rfl

/-- C3 (amended): every chunk of the semantic chunker is within
`max_chunk_size`, except a chunk that is a single sentence of an over-budget
paragraph — such a sentence becomes its own chunk and is retained whole, but
the chunker never adds a `chunk_oversized` key to its metadata (the chunk's
`chunk_oversized` entry is whatever the caller's metadata already had). -/
theorem semantic_chunk_bound_oversized_unflagged (maxSize : Nat)
    (text : List Char) (meta : Meta) :
    ∀ c ∈ semanticChunkText maxSize text meta,
      SemChunkSpec maxSize text meta c := by
  intro c hc
  have hinv := semanticChunkText_chunksInv maxSize meta
    (fun s => ∃ p ∈ splitParas text, maxSize < tokenCount p ∧
      s ∈ splitSentences p) text
    (fun p hp hbig s hs => ⟨p, hp, hbig, hs⟩)
  constructor
  · rcases hinv.ok c hc with hle | ⟨s, ⟨p, hp, hbig, hs⟩, htext, hgt⟩
    · exact Or.inl hle
    · refine Or.inr ⟨p, hp, hbig, s, hs, ?_, hgt⟩
      rw [htext, mem_splitSentences_trimmed hs]
  · rcases hinv.form c hc with ⟨raw, i, rfl⟩
    exact dictGet_createChunk_other raw meta i (by decide) (by decide)

/-- Witness for C3 (amended) at a one-sentence text that exceeds the budget. -/
theorem semantic_chunk_bound_oversized_unflagged_witness :
    Chunk.mk ("aa bb cc").toList
        [("chunk_index", MVal.n 0), ("token_count", MVal.n 3)] ∈
      semanticChunkText 1 ("aa bb cc").toList [] ∧
    SemChunkSpec 1 ("aa bb cc").toList []
      (Chunk.mk ("aa bb cc").toList
        [("chunk_index", MVal.n 0), ("token_count", MVal.n 3)]) :=
  ⟨by decide, semantic_chunk_bound_oversized_unflagged 1 ("aa bb cc").toList []
    _ (by decide)⟩

/-- Counterexample to C3 as stated: the over-budget single-sentence chunk of
`"aa bb cc"` at `max_chunk_size = 1` is NOT flagged `chunk_oversized=true` —
no such key exists anywhere in the produced metadata. -/
theorem chunk_oversized_flag_never_set : ¬ C3Claim 1 ("aa bb cc").toList [] := by
  decide

/-- C8 (amended): token-level coverage holds for the fixed-size strategy —
the first chunk's tokens followed by every later chunk's tokens minus the
first `overlap` tokens reconstruct exactly the token sequence of the input.
(Character-level coverage fails for the semantic strategy, which drops
paragraph separators and stripped whitespace; see the counterexample.) -/
theorem fixed_window_token_coverage (size o : Nat) (h : o < size)
    (text : List Char) (meta : Meta) :
    reconstructOverlap o
      ((fixedChunkText size o text meta).map (fun c => pywords c.text)) =
      pywords text := by
  have hstep : size - o ≠ 0 := by omega
  have hsize : (size - o) + o = size := by omega
  have hmap : (fixedChunkText size o text meta).map (fun c => pywords c.text) =
      rangeSlices size (size - o) (pywords text) := by
    simp only [fixedChunkText]
    rw [if_neg hstep, rangeSlices, if_neg hstep, List.map_map]
    refine List.map_congr_left (fun j _ => ?_)
    refine pywords_intercalate _ (fun u hu => ?_)
    exact pywords_mem_props
      (List.mem_of_mem_drop (List.mem_of_mem_take hu))
  rw [hmap, rangeSlices_eq_windowsFrom size (size - o) hstep,
    reconstructOverlap_windowsFrom hsize hstep]

/-- Witness for C8 (amended): 5 tokens, window 3, overlap 1. -/
theorem fixed_window_token_coverage_witness :
    1 < 3 ∧ reconstructOverlap 1
      ((fixedChunkText 3 1 ("t1 t2 t3 t4 t5").toList []).map
        (fun c => pywords c.text)) = pywords ("t1 t2 t3 t4 t5").toList :=
  ⟨by decide, fixed_window_token_coverage 3 1 (by decide)
    ("t1 t2 t3 t4 t5").toList []⟩

/-- Counterexample to C8 as stated: on `"a\n\nb"` at budget 1 the semantic
strategy emits chunks `"a"` and `"b"`; the newline characters of the source
text appear in no chunk, so character-level coverage fails. -/
theorem semantic_coverage_drops_characters :
    '\n' ∈ ("a\n\nb").toList ∧
      ∀ c ∈ semanticChunkText 1 ("a\n\nb").toList [], '\n' ∉ c.text := by
  decide

/-- C1 (amended): the rerank engine assigns each candidate
`combined_score = 0.7 × similarity + 0.3 × lexical_overlap` where the lexical
overlap tokenizes on WHITESPACE ONLY (case-insensitive, `str.split()`), and
returns the scored candidates sorted descending by combined score with ties
kept in ORIGINAL CANDIDATE ORDER (the sort is stable and never consults the
similarity score again), truncated to the first `top_k`: the output is a
permutation of the scored candidates, sorted under `scoreGE`, score-class by
score-class in input order, and `topKResults` is the `top_k`-prefix. -/
theorem rerank_blended_score_stable_sort (query : List Char)
    (results : List (SearchHit × ℚ)) (k : Nat) :
    (rerankResults query results).Perm (rerankScored query results) ∧
    List.Sorted scoreGE (rerankResults query results) ∧
    (∀ s : ℚ, (rerankResults query results).filter (fun y => y.2 = s) =
      (rerankScored query results).filter (fun y => y.2 = s)) ∧
    topKResults query results k = (rerankResults query results).take k ∧
    (∃ t, rerankResults query results = topKResults query results k ++ t) ∧
    (topKResults query results k).length ≤ k :=
  ⟨List.perm_insertionSort scoreGE (rerankScored query results),
    List.sorted_insertionSort scoreGE (rerankScored query results),
    fun s => filter_insertionSort_eqscore s (rerankScored query results),
    rfl,
    ⟨(rerankResults query results).drop k, (List.take_append_drop k _).symm⟩,
    List.length_take_le k _⟩

/-- Counterexample to C1 as stated: the code's output differs from the
claimed one both on a query term carrying punctuation (`"b."` never matches
the token `"b"`: the code tokenizes on whitespace only) and on a
combined-score tie (the stable sort keeps the LOWER-similarity candidate
first when it came first, instead of breaking the tie by similarity). -/
theorem rerank_claim_differs_from_code :
    topKResults ("b.").toList [(SearchHit.mk ("b").toList [], 1 / 2)] 1 ≠
        claimedRerank ("b.").toList [(SearchHit.mk ("b").toList [], 1 / 2)] 1 ∧
      topKResults ("a b c d e f g h i j").toList
          [(SearchHit.mk ("a b c d e f g").toList [], 7 / 10),
           (SearchHit.mk ("z").toList [], 1)] 2 ≠
        claimedRerank ("a b c d e f g h i j").toList
          [(SearchHit.mk ("a b c d e f g").toList [], 7 / 10),
           (SearchHit.mk ("z").toList [], 1)] 2 := by
  with_unfolding_all decide

/-- C4 (amended): the Qdrant upsert itself is idempotent per POINT id
(re-upserting a point is a no-op, and with distinct stored ids the point's id
maps to exactly one stored point holding the latest payload), but
`add_documents` draws a FRESH uuid for every point of every call, so calling
it twice with the same chunk leaves TWO stored points carrying that chunk's
payload. -/
theorem upsert_idempotent_per_point_id (store : List StoredPoint)
    (p : StoredPoint) (hnodup : (store.map (fun q => q.id)).Nodup) :
    upsertPoint (upsertPoint store p) p = upsertPoint store p ∧
    (upsertPoint store p).filter (fun q => q.id = p.id) = [p] ∧
    (∀ (c : Chunk) (v : List ℚ),
      (((addDocuments
          (addDocuments [] 0 [c] [v]).1
          (addDocuments [] 0 [c] [v]).2.1 [c] [v]).1.filter
        (fun q => q.payload_text = c.text ∧
          q.payload_metadata = c.metadata)).length) = 2) := by
  refine ⟨upsertPoint_idem store p, upsertPoint_filter_id hnodup,
    fun c v => ?_⟩
  simp [addDocuments, upsertPoints, upsertPoint, mkPoint, List.foldl,
    List.filter]

/-- Witness for C4 (amended) on the empty store. -/
theorem upsert_idempotent_per_point_id_witness :
    (([] : List StoredPoint).map (fun q => q.id)).Nodup ∧
      (upsertPoint (upsertPoint [] (StoredPoint.mk 0 [] [] []))
          (StoredPoint.mk 0 [] [] []) =
        upsertPoint [] (StoredPoint.mk 0 [] [] []) ∧
      (upsertPoint [] (StoredPoint.mk 0 [] [] [])).filter
          (fun q => q.id = (StoredPoint.mk 0 [] [] []).id) =
        [StoredPoint.mk 0 [] [] []] ∧
      (∀ (c : Chunk) (v : List ℚ),
        (((addDocuments
            (addDocuments [] 0 [c] [v]).1
            (addDocuments [] 0 [c] [v]).2.1 [c] [v]).1.filter
          (fun q => q.payload_text = c.text ∧
            q.payload_metadata = c.metadata)).length) = 2)) :=
  ⟨by decide, upsert_idempotent_per_point_id [] (StoredPoint.mk 0 [] [] [])
    (by decide)⟩

/-- Counterexample to C4 as stated: two `add_documents` calls with the same
chunk leave TWO stored points whose payload is that chunk, not exactly one —
each call generates a fresh point id. -/
theorem upsert_same_chunk_twice_two_points :
    ((addDocuments
        (addDocuments [] 0 [Chunk.mk ("x").toList []] [[1]]).1
        (addDocuments [] 0 [Chunk.mk ("x").toList []] [[1]]).2.1
        [Chunk.mk ("x").toList []] [[1]]).1.filter
      (fun q => q.payload_text = ("x").toList)).length = 2 ∧
    ((addDocuments
        (addDocuments [] 0 [Chunk.mk ("x").toList []] [[1]]).1
        (addDocuments [] 0 [Chunk.mk ("x").toList []] [[1]]).2.1
        [Chunk.mk ("x").toList []] [[1]]).1.filter
      (fun q => q.payload_text = ("x").toList)).length ≠ 1 := by
  with_unfolding_all decide

/-- C5 (amended): on an empty retrieval result list the streaming answer
assembler never raises (it is a total function), emits a first event
`{"type": "sources", "sources": [], ...}`, fabricates no citation (the
sources array is empty and `_prepare_sources [] = []`), and the context block
is empty — but NO `no_sources` flag is emitted on any event, and the RAG
system prompt still carries its (empty) context section. -/
theorem stream_empty_sources_no_flag (sid uid umsg resp : List Char)
    (persist : List Char → List Char) :
    (streamRagResponse sid uid umsg resp [] persist).head? =
        some [("type", JVal.s ("sources").toList), ("sources", JVal.arr []),
          ("session_id", JVal.s sid)] ∧
      ((streamRagResponse sid uid umsg resp [] persist).all
        (fun ev => (eventGet ev "no_sources").isNone)) = true ∧
      prepareContext [] = [] ∧ prepareSources [] = [] := by
  refine ⟨rfl, ?_, rfl, rfl⟩
  refine List.all_eq_true.mpr (fun e he => ?_)
  simp only [streamRagResponse] at he
  rcases List.mem_cons.mp he with rfl | he
  · rfl
  rcases List.mem_append.mp he with he | he
  · rcases List.mem_map.mp he with ⟨w, _, rfl⟩
    rfl
  · have hec : e = [("type", JVal.s ("complete").toList),
        ("session_id", JVal.s sid),
        ("message_id", JVal.s (persist (trimChars
          (((pywords resp).map (fun w => w ++ [' '])).flatten))))] := by
      simpa using he
    rw [hec]
    rfl

/-- Counterexample to C5 as stated: in the concrete empty-result stream no
event carries a `no_sources` key at all, let alone `no_sources=true`. -/
theorem stream_empty_sources_flag_absent :
    ((streamRagResponse ("s1").toList ("u1").toList ("hi").toList
        ("hello world").toList [] (fun _ => ("m1").toList)).all
      (fun ev => match eventGet ev "no_sources" with
        | some (JVal.s v) => decide (v = [])
        | some _ => false
        | none => true)) = true ∧
    ((streamRagResponse ("s1").toList ("u1").toList ("hi").toList
        ("hello world").toList [] (fun _ => ("m1").toList)).any
      (fun ev => !(eventGet ev "no_sources").isNone)) = false := by
  constructor <;> rfl

/-- C6 (amended): per-file failures accumulate without aborting the job —
every successfully indexed file of every batch is counted, every failing file
is recorded in `job.errors` (in order, with its error) — but the job finishes
with status `"completed"` regardless; no `completed_with_errors` status
exists in the code. -/
theorem indexing_job_accumulates_errors (bs : Nat) (h : 0 < bs)
    (outcome : List Char → Except (List Char) Unit)
    (files : List (List Char)) :
    (executeIndexingJob bs outcome files).status = "completed" ∧
    (executeIndexingJob bs outcome files).processed_files =
      (files.filter (fun f => (outcome f).isOk)).length ∧
    (executeIndexingJob bs outcome files).errors =
      failEntries outcome files := by
  have hbs : bs ≠ 0 := by omega
  have hflat : (rangeSlices bs bs files).flatten = files := by
    rw [rangeSlices_eq_windowsFrom bs bs hbs, flatten_windowsFrom hbs]
  have hfold := foldl_processOneBatch outcome (rangeSlices bs bs files)
    { status := "running", progress := 0, total_files := files.length
      processed_files := 0, errors := [] }
  rw [hflat] at hfold
  refine ⟨rfl, ?_, ?_⟩
  · have e : (executeIndexingJob bs outcome files).processed_files =
        ((rangeSlices bs bs files).foldl (processOneBatch outcome)
          { status := "running", progress := 0, total_files := files.length
            processed_files := 0, errors := [] }).processed_files := rfl
    rw [e, hfold.1, Nat.zero_add]
  · have e : (executeIndexingJob bs outcome files).errors =
        ((rangeSlices bs bs files).foldl (processOneBatch outcome)
          { status := "running", progress := 0, total_files := files.length
            processed_files := 0, errors := [] }).errors := rfl
    rw [e, hfold.2.1, List.nil_append]

/-- Witness for C6 (amended): three files in batches of two, the middle one
failing. -/
theorem indexing_job_accumulates_errors_witness :
    0 < 2 ∧
      ((executeIndexingJob 2
          (fun f => if f = ("f2").toList
            then Except.error ("boom").toList else Except.ok ())
          [("f1").toList, ("f2").toList, ("f3").toList]).status =
        "completed" ∧
      (executeIndexingJob 2
          (fun f => if f = ("f2").toList
            then Except.error ("boom").toList else Except.ok ())
          [("f1").toList, ("f2").toList, ("f3").toList]).processed_files =
        ([("f1").toList, ("f2").toList, ("f3").toList].filter
          (fun f => ((if f = ("f2").toList
            then Except.error ("boom").toList else Except.ok ()) :
              Except (List Char) Unit).isOk)).length ∧
      (executeIndexingJob 2
          (fun f => if f = ("f2").toList
            then Except.error ("boom").toList else Except.ok ())
          [("f1").toList, ("f2").toList, ("f3").toList]).errors =
        failEntries
          (fun f => if f = ("f2").toList
            then Except.error ("boom").toList else Except.ok ())
          [("f1").toList, ("f2").toList, ("f3").toList]) :=
  ⟨by decide, indexing_job_accumulates_errors 2 (by decide) _ _⟩

/-- Counterexample to C6 as stated: a partially failing job ends with status
`"completed"`, not `"completed_with_errors"`, even though one file's error
was recorded and the other two files were indexed. -/
theorem indexing_job_status_never_completed_with_errors :
    (executeIndexingJob 2
        (fun f => if f = ("f2").toList
          then Except.error ("boom").toList else Except.ok ())
        [("f1").toList, ("f2").toList, ("f3").toList]).status =
      "completed" ∧
    ¬(executeIndexingJob 2
        (fun f => if f = ("f2").toList
          then Except.error ("boom").toList else Except.ok ())
        [("f1").toList, ("f2").toList, ("f3").toList]).status =
      "completed_with_errors" ∧
    (executeIndexingJob 2
        (fun f => if f = ("f2").toList
          then Except.error ("boom").toList else Except.ok ())
        [("f1").toList, ("f2").toList, ("f3").toList]).errors.length = 1 ∧
    (executeIndexingJob 2
        (fun f => if f = ("f2").toList
          then Except.error ("boom").toList else Except.ok ())
        [("f1").toList, ("f2").toList, ("f3").toList]).processed_files = 2 := by
  decide

end TemplateAIRAG
